import Mathlib

/-! The `clean` filter core of git-crypt-agessh.

A shallow embedding of the `clean <path>` branch of `main` in `src/main.go`
(lines 88-287) together with the properties of its four inlined parts:

* the path component splitter (lines 206-222),
* the rule-file scan and recipient resolver (lines 224-271),
* the history comparator (lines 140-197),
* the final encryption of standard input (lines 273-287).

Modelling conventions.

* A Go `string` is a `List Char` (`GoString`): the text is taken to be valid
  UTF-8, so that a byte offset returned by `strings.IndexRune` for a one-byte
  separator cuts the string at the same place as the character offset.
* A byte buffer is a `List Byte` with `Byte = Fin 256`.
* `os.Stdin` is a stream: reading it to the end leaves nothing to read.
* The libraries the program calls (go-git attribute patterns, the age
  recipient parser, age encryption and decryption, `path.Join`) are parameters
  collected in `Ext`; the repository, the disk and the key file are collected
  in `Env`.  A rule file on disk is given as the list of lines its
  `bufio.Scanner` yields.
* `log.Fatalln` ends the run: the status of the process becomes
  `Status.fatal`.  Stream I/O itself is assumed not to fail, and diagnostics
  written to the error stream are not modelled.
-/

namespace GitCryptAgessh

/-! ## Go strings -/

/-- A Go string, as its sequence of code points. -/
abbrev GoString := List Char

/-- A byte of a buffer. -/
abbrev Byte := Fin 256

/-- Go `strings.Trim(s, string([]rune{c}))`: remove every leading and every
trailing occurrence of the single character `c`. -/
def Trim (s : GoString) (c : Char) : GoString :=
  (s.dropWhile (fun x => x == c)).rdropWhile (fun x => x == c)

/-- Go `strings.IndexRune(s, c)`: the offset of the first `c` in `s`, or `-1`. -/
def IndexRune (s : GoString) (c : Char) : Int :=
  if c ∈ s then (s.indexOf c : Nat) else -1

/-- Go `strings.Split(s, string(c))` for a one-character separator: cut `s` at
every occurrence of `c`; a string without `c` (the empty one included) gives
one piece. -/
def Split : GoString → Char → List GoString
  | [], _ => [[]]
  | x :: xs, c =>
    if x = c then [] :: Split xs c
    else
      match Split xs c with
      | [] => [[x]]
      | h :: t => (x :: h) :: t

/-- Go `unicode.IsSpace`: the code points with the White_Space property. -/
def isSpace (c : Char) : Bool :=
  let n := c.toNat
  (0x09 ≤ n && n ≤ 0x0D) || n == 0x20 || n == 0x85 || n == 0xA0 || n == 0x1680 ||
    (0x2000 ≤ n && n ≤ 0x200A) || n == 0x2028 || n == 0x2029 || n == 0x202F ||
    n == 0x205F || n == 0x3000

/-- Go `strings.TrimSpace`: remove leading and trailing white space. -/
def TrimSpace (s : GoString) : GoString :=
  (s.dropWhile isSpace).rdropWhile isSpace

/-! ## Outcomes -/

/-- The places where the `clean` branch ends the process with `log.Fatalln`
(or, for the last one, where indexing a slice would panic). -/
inductive Fatal where
  | head
  | referenceNotFound
  | worktree
  | openTip
  | identity
  | decrypt
  | malformedPattern
  | malformedRecipient
  | encrypt
  | indexOutOfRange
  deriving DecidableEq, Repr

/-- How a run of the `clean` branch ends. -/
inductive Status where
  | done
  | fatal (e : Fatal)
  | diverged
  deriving DecidableEq, Repr

/-! ## Path component splitter (lines 206-222) -/

/-- The `for` loop of lines 212-222, with `fuel` bounding the number of
iterations; `none` means the fuel ran out before the `break`. -/
def pathComponentsLoop (sep : Char) : Nat → List GoString → GoString → Option (List GoString)
  | 0, _, _ => none
  | fuel + 1, pathComponents, curr =>
    let curr := Trim curr sep
    let idx := IndexRune curr sep
    if idx = -1 then
      some (pathComponents ++ [curr])
    else
      pathComponentsLoop sep fuel (pathComponents ++ [curr.take idx.toNat])
        (curr.drop (idx + 1).toNat)

/-- Lines 206-222: `pathComponents` starts as the one-element slice holding the
separator and is extended by the loop, run on `relPath`. -/
def pathComponents (sep : Char) (relPath : GoString) : Option (List GoString) :=
  pathComponentsLoop sep (relPath.length + 1) [[sep]] relPath

/-! ## History comparator (lines 163-177) -/

/-- The `for i, b := range headBuf.Bytes()` loop of lines 171-176, started at
index `i` on the rest of `headBuf`; `stdinBuf.Bytes()[i]` out of range is a
panic. -/
def compareLoop (stdinBuf : List Byte) : Nat → List Byte → Except Fatal Bool
  | _, [] => .ok true
  | i, b :: rest =>
    match stdinBuf.get? i with
    | none => .error .indexOutOfRange
    | some b' => if b ≠ b' then .ok false else compareLoop stdinBuf (i + 1) rest

/-- Lines 163-177: the value of `noChanges`. -/
def noChanges (headBuf stdinBuf : List Byte) : Except Fatal Bool :=
  if headBuf.length ≠ stdinBuf.length then .ok false
  else compareLoop stdinBuf 0 headBuf

/-! ## External capabilities and the environment of a run -/

/-- The library functions the `clean` branch calls.  `P` is the type of parsed
attribute patterns, `R` of age recipients, `I` of age identities. -/
structure Ext (P R I : Type) where
  /-- The constant `filepath.Separator`. -/
  Separator : Char
  /-- Function `attrs.ParseAttributesLine(line, domain, true)`: an error, or the
  pattern of the line (`none` for a nil `Pattern`). -/
  ParseAttributesLine : GoString → List GoString → Except Unit (Option P)
  /-- Method `Pattern.Match(path)`. -/
  Match : P → List GoString → Bool
  /-- Function `age.ParseX25519Recipient`. -/
  ParseX25519Recipient : GoString → Except Unit R
  /-- Function `path.Join`. -/
  pathJoin : List GoString → GoString
  /-- Function `age.Decrypt` followed by reading the plaintext to the end. -/
  ageDecrypt : I → List Byte → Option (List Byte)
  /-- Whether `age.Encrypt` accepts the recipient list (it refuses an empty
  one, for instance). -/
  ageEncryptOk : List R → Bool

/-- The result of `repo.Head()`. -/
inductive HeadResult where
  | ok
  | errReferenceNotFound
  | otherError
  deriving DecidableEq, Repr

/-- The result of `fs.Open(relPath)` on the in-memory worktree reset to the
head commit. -/
inductive OpenResult where
  | file (blob : List Byte)
  | errNotExist
  | otherError
  deriving DecidableEq, Repr

/-- What a run finds around it. -/
structure Env (I : Type) where
  /-- The result of `repo.Head()`. -/
  head : HeadResult
  /-- Whether `repo.Worktree()` and `wt.Reset` succeed. -/
  resetOk : Bool
  /-- The in-memory worktree after the reset. -/
  memfsOpen : GoString → OpenResult
  /-- The result of `getIdentity()`; `none` when it ends the process. -/
  getIdentity : Option I
  /-- The result of `os.Open`: `none` on any error, else the lines of the file. -/
  osOpen : GoString → Option (List GoString)

/-! ## Rule-file scan (lines 231-265) -/

/-- The two variables the resolver loop carries: `recipients` and
`preceedingComment`. -/
structure ResolverState (R : Type) where
  recipients : List R
  preceedingComment : GoString

/-- Line 234: `len(scanner.Text()) > 0 && []rune(scanner.Text())[0] == '#'`. -/
def isCommentLine (text : GoString) : Bool :=
  match text with
  | [] => false
  | c :: _ => c == '#'

/-- Line 253: `strings.Split(strings.TrimSpace(preceedingComment[1:]), ",")`. -/
def idStrs (preceedingComment : GoString) : List GoString :=
  Split (TrimSpace (preceedingComment.drop 1)) ','

/-- Lines 256-262: parse every string of `idStrs` in order; the first failure
ends the process. -/
def newRecipients {P R I : Type} (ext : Ext P R I) : List GoString → Except Fatal (List R)
  | [] => .ok []
  | str :: rest =>
    match ext.ParseX25519Recipient str with
    | .error _ => .error .malformedRecipient
    | .ok r =>
      match newRecipients ext rest with
      | .error e => .error e
      | .ok rs => .ok (r :: rs)

/-- The body of the `for scanner.Scan()` loop (lines 233-264) on one line. -/
def scanLine {P R I : Type} (ext : Ext P R I) (domain pathComponents : List GoString)
    (st : ResolverState R) (text : GoString) : Except Fatal (ResolverState R) :=
  if isCommentLine text then
    .ok { st with preceedingComment := text }
  else if st.preceedingComment = [] then
    .ok st
  else
    match ext.ParseAttributesLine text domain with
    | .error _ => .error .malformedPattern
    | .ok lineAttrs =>
      if (match lineAttrs with
          | none => false
          | some pattern => ext.Match pattern pathComponents) then
        match newRecipients ext (idStrs st.preceedingComment) with
        | .error e => .error e
        | .ok new => .ok { st with recipients := st.recipients ++ new }
      else
        .ok st

/-- The `for scanner.Scan()` loop over the lines of one rule file. -/
def scanLoop {P R I : Type} (ext : Ext P R I) (domain pathComponents : List GoString) :
    List GoString → ResolverState R → Except Fatal (ResolverState R)
  | [], st => .ok st
  | text :: rest, st =>
    match scanLine ext domain pathComponents st text with
    | .error e => .error e
    | .ok st' => scanLoop ext domain pathComponents rest st'

/-! ## Recipient resolver (lines 224-271) -/

/-- The file name `.gitattributes`. -/
def gitattributes : GoString := ".gitattributes".toList

/-- Line 230: the name handed to `os.Open` for the directory `domain`. -/
def ruleFilePath {P R I : Type} (ext : Ext P R I) (domain : List GoString) : GoString :=
  ext.pathJoin [ext.pathJoin (domain.drop 1), gitattributes]

/-- The loop `for i := range pathComponents[:len(pathComponents)-1]` of lines
228-271, over the indices still to visit. -/
def resolveLoop {P R I : Type} (ext : Ext P R I) (env : Env I) (pathComponents : List GoString) :
    List Nat → ResolverState R → Except Fatal (ResolverState R)
  | [], st => .ok st
  | i :: rest, st =>
    let domain := pathComponents.take (i + 1)
    match env.osOpen (ruleFilePath ext domain) with
    | none => resolveLoop ext env pathComponents rest st
    | some lines =>
      match scanLoop ext domain pathComponents lines st with
      | .error e => .error e
      | .ok st' =>
        resolveLoop ext env pathComponents rest { st' with preceedingComment := [] }

/-- Lines 225-271: both variables start empty, the loop visits the indices
`0 .. len(pathComponents)-2`. -/
def resolveState {P R I : Type} (ext : Ext P R I) (env : Env I) (pathComponents : List GoString) :
    Except Fatal (ResolverState R) :=
  resolveLoop ext env pathComponents (List.range (pathComponents.length - 1))
    { recipients := [], preceedingComment := [] }

/-- The value of `recipients` after the resolver loop. -/
def resolve {P R I : Type} (ext : Ext P R I) (env : Env I) (pathComponents : List GoString) :
    Except Fatal (List R) :=
  match resolveState ext env pathComponents with
  | .error e => .error e
  | .ok st => .ok st.recipients

/-! ## The clean branch (lines 88-287) -/

/-- A call of an age primitive. -/
inductive Call (R : Type) where
  | decrypt (blob : List Byte)
  | encrypt (recipients : List R)
  deriving DecidableEq, Repr

/-- Something written to `os.Stdout`: bytes copied as they are, or the age
ciphertext produced for `plaintext` under `recipients`. -/
inductive Output (R : Type) where
  | raw (bytes : List Byte)
  | encrypted (recipients : List R) (plaintext : List Byte)
  deriving DecidableEq, Repr

/-- The observable state of the process. -/
structure Proc (R : Type) where
  status : Status
  /-- What is still unread on `os.Stdin`. -/
  stdin : List Byte
  /-- What has been written to `os.Stdout`, in order. -/
  stdout : List (Output R)
  /-- The age primitives called so far, in order. -/
  calls : List (Call R)
  deriving DecidableEq, Repr

/-- Lines 204-287.  The check of lines 208-210 comes first: `err` is the outer
variable last assigned by `repo.Head()` on line 107 (the assignments inside the
`if !headless` block declare variables of their own), so it is non-nil exactly
on a headless run, which `log.Fatalln` ends here.  Otherwise: split the path,
resolve the recipients, then `age.Encrypt(os.Stdout, recipients...)` and
`io.Copy(w, os.Stdin)`, which encrypts whatever is still unread on standard
input. -/
def encryptPhase {P R I : Type} (ext : Ext P R I) (env : Env I) (relPath : GoString)
    (err : Option Fatal) (p : Proc R) : Proc R :=
  match err with
  | some e => { p with status := .fatal e }
  | none =>
    match pathComponents ext.Separator relPath with
    | none => { p with status := .diverged }
    | some pathComponents =>
      match resolve ext env pathComponents with
      | .error e => { p with status := .fatal e }
      | .ok recipients =>
        if ext.ageEncryptOk recipients then
          { status := .done
            stdin := []
            stdout := p.stdout ++ [.encrypted recipients p.stdin]
            calls := p.calls ++ [.encrypt recipients] }
        else
          { p with status := .fatal .encrypt, calls := p.calls ++ [.encrypt recipients] }

/-- The `clean <path>` branch, from `repo.Head()` on (lines 104-287), for the
repository-relative path `relPath` and the bytes `input` waiting on standard
input.  When `repo.Head()` fails with `plumbing.ErrReferenceNotFound` the run is
headless, the comparison is skipped, and the outer `err` keeps that error. -/
def clean {P R I : Type} (ext : Ext P R I) (env : Env I) (relPath : GoString)
    (input : List Byte) : Proc R :=
  let p : Proc R := { status := .done, stdin := input, stdout := [], calls := [] }
  match env.head with
  | .otherError => { p with status := .fatal .head }
  | .errReferenceNotFound => encryptPhase ext env relPath (some .referenceNotFound) p
  | .ok =>
    if env.resetOk then
      match env.memfsOpen relPath with
      | .otherError => { p with status := .fatal .openTip }
      | .errNotExist => encryptPhase ext env relPath none p
      | .file blob =>
        match env.getIdentity with
        | none => { p with status := .fatal .identity }
        | some id =>
          match ext.ageDecrypt id blob with
          | none => { p with status := .fatal .decrypt, calls := [.decrypt blob] }
          | some headBuf =>
            let stdinBuf := p.stdin
            let p : Proc R := { p with stdin := [], calls := [.decrypt blob] }
            match noChanges headBuf stdinBuf with
            | .error e => { p with status := .fatal e }
            | .ok true => { p with stdout := [.raw blob] }
            | .ok false => encryptPhase ext env relPath none p
    else
      { p with status := .fatal .worktree }

/-! ## Definitions used to state the properties -/

/-- The non-empty pieces of `s` cut at every `c`. -/
def segments (s : GoString) (c : Char) : List GoString :=
  (Split s c).filter (fun t => !t.isEmpty)

/-- The splitter as the specification words it: the root marker followed by
the pieces of the separator-trimmed path cut at every separator occurrence. -/
def splitterSpec (sep : Char) (relPath : GoString) : List GoString :=
  [sep] :: Split (Trim relPath sep) sep

/-- The recipient strings as the specification words them: comment marker
stripped, the rest cut at commas, every entry trimmed of white space. -/
def idStrsSpec (preceedingComment : GoString) : List GoString :=
  (Split (preceedingComment.drop 1) ',').map TrimSpace

/-- The first white-space-delimited field of a rule line: the pattern. -/
def firstField (line : GoString) : GoString :=
  (line.dropWhile isSpace).takeWhile (fun c => !isSpace c)

/-- Whether a string has the shape of an age X25519 recipient: 62 characters,
starting with `age1`, lower-case letters and digits only. -/
def looksLikeRecipient (s : GoString) : Bool :=
  s.length == 62 && s.take 4 == "age1".toList && s.all (fun c => c.isLower || c.isDigit)

/-- The sample libraries. -/
def sampleExt : Ext (List GoString × GoString) GoString Unit where
  Separator := '/'
  ParseAttributesLine := fun line domain =>
    if firstField line = [] then .ok none else .ok (some (domain, firstField line))
  Match := fun pattern path =>
    decide (pattern.1.length < path.length) && path.take pattern.1.length == pattern.1 &&
      path.getLast? == some pattern.2
  ParseX25519Recipient := fun s => if looksLikeRecipient s then .ok s else .error ()
  pathJoin := fun elems => List.intercalate ['/'] (elems.filter (fun e => !e.isEmpty))
  ageDecrypt := fun _ blob =>
    match blob with
    | [] => none
    | m :: rest => if m = 0xA9 then some rest else none
  ageEncryptOk := fun recipients => !recipients.isEmpty

/-- A sample recipient. -/
def keyA : GoString := "age1ql3z7hjy54pw3hyww5ayyfg7zqgvc7w3j2elw8zmrj2kg5sfn9aqmcac8p".toList

/-- Another sample recipient. -/
def keyB : GoString := "age1lggyhqrw2nlhcxprm67z43rta597azn8gknawjehu9d9dl0jq3yqqvfafg".toList

/-- The comment line naming one recipient. -/
def commentOf (key : GoString) : GoString := '#' :: ' ' :: key

/-- A rule line for `secret.txt`. -/
def secretRule : GoString := "secret.txt filter=git-crypt-agessh diff=git-crypt-agessh".toList

/-- A rule line for `other.txt`. -/
def otherRule : GoString := "other.txt filter=git-crypt-agessh diff=git-crypt-agessh".toList

/-- A disk holding the given rule files and nothing else. -/
def diskOf (files : List (GoString × List GoString)) (name : GoString) : Option (List GoString) :=
  (files.find? (fun f => f.1 == name)).map (fun f => f.2)

/-- A repository whose head commit stores `secret.txt` as the encryption of
the one byte `a`, with one rule file at the root naming `keyA` for it. -/
def sampleEnv : Env Unit where
  head := .ok
  resetOk := true
  memfsOpen := fun name => if name = "secret.txt".toList then .file [0xA9, 0x61] else .errNotExist
  getIdentity := some ()
  osOpen := diskOf [(".gitattributes".toList, [commentOf keyA, secretRule])]

/-- The same disk in a repository without any commit. -/
def headlessEnv : Env Unit :=
  { sampleEnv with head := .errReferenceNotFound }

/-- A path that the head commit of the sample repository does not hold, with a
rule at the root naming `keyA` for it. -/
def newFileEnv : Env Unit :=
  { sampleEnv with
    osOpen := diskOf [(".gitattributes".toList,
      [commentOf keyA, "new.txt filter=git-crypt-agessh diff=git-crypt-agessh".toList])] }

/-- The example of the specification: the root rule file ends in a comment
naming `keyA`, the rule file of `sub` starts with a rule for `secret.txt`. -/
def boundaryEnv : Env Unit :=
  { sampleEnv with
    osOpen := diskOf [(".gitattributes".toList, [commentOf keyA]),
      ("sub/.gitattributes".toList, ["secret.txt filter=x".toList])] }

/-- Rule files at two levels: `keyA` at the root and `keyB` in `sub`, both for
`secret.txt`. -/
def twoLevelEnv : Env Unit :=
  { sampleEnv with
    osOpen := diskOf [(".gitattributes".toList, [commentOf keyA, secretRule]),
      ("sub/.gitattributes".toList, [commentOf keyB, secretRule])] }

/-! ## Comparator -/

theorem compareLoop_eq (stdinBuf : List Byte) :
    ∀ (rest : List Byte) (i : Nat), (stdinBuf.drop i).length = rest.length →
      compareLoop stdinBuf i rest = .ok (decide (rest = stdinBuf.drop i)) := by
  intro rest
  induction rest with
  | nil =>
    intro i h
    have : stdinBuf.drop i = [] := List.length_eq_zero.mp h
    simp [compareLoop, this]
  | cons b rest ih =>
    intro i h
    have hi : i < stdinBuf.length := by
      simp only [List.length_drop, List.length_cons] at h
      omega
    have hd : stdinBuf.drop i = stdinBuf[i] :: stdinBuf.drop (i + 1) :=
      List.drop_eq_getElem_cons hi
    have hg : stdinBuf.get? i = some stdinBuf[i] := by
      simp [List.getElem?_eq_getElem hi]
    have hlen : (stdinBuf.drop (i + 1)).length = rest.length := by
      simp only [List.length_drop, List.length_cons] at h ⊢
      omega
    rw [compareLoop, hg]
    by_cases hb : b = stdinBuf[i]
    · have e : (b :: rest = stdinBuf.drop i) ↔ (rest = stdinBuf.drop (i + 1)) := by
        rw [hd, hb]
        constructor
        · intro h2
          exact (List.cons.inj h2).2
        · intro h2
          rw [← h2]
      simp only [hb, ne_eq, not_true_eq_false, if_false, ih (i + 1) hlen]
      congr 1
      exact (decide_eq_decide.mpr (by rw [← hb]; exact e)).symm
    · have e : ¬ (b :: rest = stdinBuf.drop i) := by
        rw [hd]
        intro h2
        exact hb (List.cons.inj h2).1
      simp only [ne_eq, hb, not_false_eq_true, if_true, e, decide_False]

theorem noChanges_eq_decide (headBuf stdinBuf : List Byte) :
    noChanges headBuf stdinBuf = .ok (decide (headBuf = stdinBuf)) := by
  unfold noChanges
  by_cases h : headBuf.length = stdinBuf.length
  · have := compareLoop_eq stdinBuf headBuf 0 (by simpa using h.symm)
    simpa [h] using this
  · have hne : headBuf ≠ stdinBuf := fun e => h (by rw [e])
    simp [h, hne]

/-- C9: the comparator never indexes out of range, and its verdict is `true`
exactly when the decrypted historical content and the new plaintext are the
same byte sequence, `false` exactly when they differ in length or in a byte. -/
theorem noChanges_iff_eq (headBuf stdinBuf : List Byte) :
    (noChanges headBuf stdinBuf = .ok true ↔ headBuf = stdinBuf) ∧
      (noChanges headBuf stdinBuf = .ok false ↔ headBuf ≠ stdinBuf) ∧
      (∀ e, noChanges headBuf stdinBuf ≠ .error e) := by
  rw [noChanges_eq_decide]
  by_cases h : headBuf = stdinBuf
  · simp [h]
  · simp [h]

/-! ## Splitter -/

theorem Split_ne_nil (s : GoString) (c : Char) : Split s c ≠ [] := by
  induction s with
  | nil => simp [Split]
  | cons x xs ih =>
    unfold Split
    split
    · simp
    · split <;> simp

theorem Split_cons_sep (xs : GoString) (c : Char) : Split (c :: xs) c = [] :: Split xs c := by
  simp [Split]

theorem Split_cons_ne (x : Char) (xs : GoString) (c : Char) (hx : x ≠ c) :
    ∃ h t, Split xs c = h :: t ∧ Split (x :: xs) c = (x :: h) :: t := by
  cases hs : Split xs c with
  | nil => exact absurd hs (Split_ne_nil xs c)
  | cons h t => exact ⟨h, t, rfl, by simp [Split, hx, hs]⟩

theorem Split_append_sep (a b : GoString) (c : Char) (h : c ∉ a) :
    Split (a ++ c :: b) c = a :: Split b c := by
  induction a with
  | nil => simp [Split]
  | cons x xs ih =>
    have hx : x ≠ c := fun e => h (by simp [e])
    have hxs : c ∉ xs := fun e => h (by simp [e])
    obtain ⟨h1, t1, e1, e2⟩ := Split_cons_ne x (xs ++ c :: b) c hx
    rw [List.cons_append, e2]
    rw [ih hxs] at e1
    injection e1 with e3 e4
    rw [← e3, ← e4]

theorem Split_of_not_mem (s : GoString) (c : Char) (h : c ∉ s) : Split s c = [s] := by
  induction s with
  | nil => simp [Split]
  | cons x xs ih =>
    have hx : x ≠ c := fun e => h (by simp [e])
    have hxs : c ∉ xs := fun e => h (by simp [e])
    obtain ⟨h1, t1, e1, e2⟩ := Split_cons_ne x xs c hx
    rw [e2]
    rw [ih hxs] at e1
    injection e1 with e3 e4
    rw [← e3, ← e4]

theorem Split_snoc_sep (s : GoString) (c : Char) : Split (s ++ [c]) c = Split s c ++ [[]] := by
  induction s with
  | nil => simp [Split]
  | cons x xs ih =>
    by_cases hx : x = c
    · subst hx
      rw [List.cons_append, Split_cons_sep, Split_cons_sep, ih, List.cons_append]
    · obtain ⟨h1, t1, e1, e2⟩ := Split_cons_ne x (xs ++ [c]) c hx
      obtain ⟨h2, t2, e3, e4⟩ := Split_cons_ne x xs c hx
      rw [List.cons_append, e2, e4]
      rw [ih, e3, List.cons_append] at e1
      injection e1 with e5 e6
      rw [← e5, ← e6, List.cons_append]

theorem segments_cons_sep (xs : GoString) (c : Char) : segments (c :: xs) c = segments xs c := by
  simp [segments, Split_cons_sep]

theorem segments_snoc_sep (s : GoString) (c : Char) : segments (s ++ [c]) c = segments s c := by
  simp [segments, Split_snoc_sep]

theorem segments_dropWhile (s : GoString) (c : Char) :
    segments (s.dropWhile (fun x => x == c)) c = segments s c := by
  induction s with
  | nil => rfl
  | cons x xs ih =>
    by_cases hx : x = c
    · subst hx
      simp [List.dropWhile_cons, ih, segments_cons_sep]
    · simp [List.dropWhile_cons, hx]

theorem segments_rdropWhile (s : GoString) (c : Char) :
    segments (s.rdropWhile (fun x => x == c)) c = segments s c := by
  induction s using List.reverseRecOn with
  | nil => rfl
  | append_singleton xs x ih =>
    by_cases hx : x = c
    · subst hx
      rw [List.rdropWhile_concat_pos _ _ _ (by simp), ih, segments_snoc_sep]
    · rw [List.rdropWhile_concat_neg _ _ _ (by simp [hx])]

theorem segments_Trim (s : GoString) (c : Char) : segments (Trim s c) c = segments s c := by
  unfold Trim
  rw [segments_rdropWhile, segments_dropWhile]

theorem segments_cons_ne (x : Char) (xs : GoString) (c : Char) (hx : x ≠ c) :
    segments (x :: xs) c ≠ [] := by
  unfold segments
  simp only [Split, hx, if_false]
  cases hs : Split xs c with
  | nil => exact absurd hs (Split_ne_nil xs c)
  | cons h t => simp [List.filter_cons]


theorem segments_eq_nil (s : GoString) (c : Char) (h : segments s c = []) :
    ∀ x ∈ s, x = c := by
  induction s with
  | nil => simp
  | cons x xs ih =>
    by_cases hx : x = c
    · subst hx
      rw [segments_cons_sep] at h
      intro y hy
      rcases List.mem_cons.mp hy with e | e
      · exact e
      · exact ih h y e
    · exact absurd h (segments_cons_ne x xs c hx)

theorem Trim_head (s : GoString) (c : Char) (t : GoString) : Trim s c ≠ c :: t := by
  intro h
  have hp : (s.dropWhile (fun x => x == c)).rdropWhile (fun x => x == c) <+:
      s.dropWhile (fun x => x == c) := List.rdropWhile_prefix _ _
  obtain ⟨r, hr⟩ := hp
  have h2 := List.head?_dropWhile_not (fun x => x == c) s
  unfold Trim at h
  rw [h] at hr
  rw [← hr] at h2
  simp at h2

theorem Trim_last (s : GoString) (c : Char) (t : GoString) : Trim s c ≠ t ++ [c] := by
  intro h
  unfold Trim at h
  have hne : (s.dropWhile (fun x => x == c)).rdropWhile (fun x => x == c) ≠ [] := by
    rw [h]
    simp
  have h2 := List.rdropWhile_last_not (fun x => x == c) _ hne
  simp only [h, List.getLast_append_singleton] at h2
  simp at h2

theorem Trim_length_le (s : GoString) (c : Char) : (Trim s c).length ≤ s.length := by
  unfold Trim
  have hp : (s.dropWhile (fun x => x == c)).rdropWhile (fun x => x == c) <+:
      s.dropWhile (fun x => x == c) := List.rdropWhile_prefix _ _
  have hs : s.dropWhile (fun x => x == c) <:+ s := List.dropWhile_suffix _
  have h1 := hp.length_le
  have h2 := hs.length_le
  omega

theorem IndexRune_of_not_mem (s : GoString) (c : Char) (h : c ∉ s) : IndexRune s c = -1 := by
  simp [IndexRune, h]

theorem IndexRune_of_mem (s : GoString) (c : Char) (h : c ∈ s) :
    IndexRune s c = (s.indexOf c : Nat) := by
  simp [IndexRune, h]

theorem split_at_indexOf (s : GoString) (c : Char) (h : c ∈ s) :
    s = s.take (s.indexOf c) ++ c :: s.drop (s.indexOf c + 1) ∧ c ∉ s.take (s.indexOf c) := by
  induction s with
  | nil => simp at h
  | cons x xs ih =>
    by_cases hx : x = c
    · subst hx
      simp
    · have hxs : c ∈ xs := by
        rcases List.mem_cons.mp h with e | e
        · exact absurd e.symm hx
        · exact e
      have hi : (x :: xs).indexOf c = xs.indexOf c + 1 := by
        rw [List.indexOf_cons]
        have hxc : (x == c) = false := by simp [hx]
        rw [hxc]
        rfl
      obtain ⟨e1, e2⟩ := ih hxs
      rw [hi]
      refine ⟨?_, ?_⟩
      · simp only [List.take_succ_cons, List.drop_succ_cons, List.cons_append]
        rw [← e1]
      · simp only [List.take_succ_cons, List.mem_cons, not_or]
        exact ⟨fun e => hx e.symm, e2⟩

theorem pathComponentsLoop_eq (sep : Char) :
    ∀ (fuel : Nat) (acc : List GoString) (curr : GoString), curr.length < fuel →
      pathComponentsLoop sep fuel acc curr =
        some (acc ++ (if segments curr sep = [] then [[]] else segments curr sep)) := by
  intro fuel
  induction fuel with
  | zero => intro acc curr h; omega
  | succ fuel ih =>
    intro acc curr hlen
    have hseg : segments curr sep = segments (Trim curr sep) sep := (segments_Trim curr sep).symm
    have hle := Trim_length_le curr sep
    rw [pathComponentsLoop, hseg]
    generalize ht : Trim curr sep = t at hle
    by_cases hm : sep ∈ t
    · obtain ⟨e1, e2⟩ := split_at_indexOf t sep hm
      have hidx := IndexRune_of_mem t sep hm
      have hne : IndexRune t sep ≠ -1 := by
        rw [hidx]
        omega
      have h1 : (IndexRune t sep).toNat = t.indexOf sep := by rw [hidx]; simp
      have h2 : (IndexRune t sep + 1).toNat = t.indexOf sep + 1 := by rw [hidx]; omega
      simp only [hne, if_false, h1, h2]
      generalize ha : t.take (t.indexOf sep) = a at e1 e2
      generalize hb : t.drop (t.indexOf sep + 1) = b at e1
      have hane : a ≠ [] := by
        intro e
        rw [e, List.nil_append] at e1
        exact Trim_head curr sep b (ht.trans e1)
      have hbne : segments b sep ≠ [] := by
        intro e
        have hall := segments_eq_nil b sep e
        rcases List.eq_nil_or_concat b with hb0 | ⟨b', y, hb1⟩
        · rw [hb0] at e1
          exact Trim_last curr sep a (ht.trans e1)
        · have hy : y = sep := hall y (by rw [hb1]; simp)
          rw [hb1, hy] at e1
          refine Trim_last curr sep (a ++ sep :: b') (ht.trans ?_)
          rw [e1, List.concat_eq_append]
          simp
      have hbl : b.length < fuel := by
        have : t.length = a.length + (b.length + 1) := by
          rw [e1]
          simp
        omega
      rw [ih (acc ++ [a]) b hbl]
      have hst : segments t sep = a :: segments b sep := by
        rw [e1]
        unfold segments
        rw [Split_append_sep a b sep e2, List.filter_cons]
        cases a with
        | nil => exact absurd rfl hane
        | cons _ _ => simp
      simp [hst, hbne]
    · have hidx := IndexRune_of_not_mem t sep hm
      simp only [hidx, if_true]
      have hst : segments t sep = if t = [] then [] else [t] := by
        unfold segments
        rw [Split_of_not_mem t sep hm]
        cases t <;> simp
      rw [hst]
      cases t <;> simp


/-- C8 (as stated, refuted): on the empty path the splitter returns two
elements, the root marker and an empty segment, not the root marker alone. -/
theorem pathComponents_empty_not_single :
    (pathComponents '/' []).map List.length = some 2 ∧ pathComponents '/' [] ≠ some [['/']] := by
  decide

/-- C8 (amended): on the empty path the splitter returns the root marker
followed by one empty segment. -/
theorem pathComponents_empty (sep : Char) : pathComponents sep [] = some [[sep], []] := by
  simp [pathComponents, pathComponentsLoop, Trim, IndexRune]

/-- C10 (as stated, refuted): on `a//b` the splitter returns the root marker,
`a` and `b`, whereas trimming and cutting at every separator gives the root
marker, `a`, an empty piece and `b`. -/
theorem pathComponents_collapses_separators :
    pathComponents '/' "a//b".toList = some ["/".toList, "a".toList, "b".toList] ∧
      splitterSpec '/' "a//b".toList = ["/".toList, "a".toList, "".toList, "b".toList] ∧
      pathComponents '/' "a//b".toList ≠ some (splitterSpec '/' "a//b".toList) := by
  decide

theorem pathComponents_total (sep : Char) (relPath : GoString) :
    pathComponents sep relPath =
      some ([sep] :: (if Trim relPath sep = [] then [[]]
        else (Split (Trim relPath sep) sep).filter (fun t => !t.isEmpty))) := by
  unfold pathComponents
  rw [pathComponentsLoop_eq sep (relPath.length + 1) [[sep]] relPath (Nat.lt_succ_self _)]
  have hseg : segments relPath sep = segments (Trim relPath sep) sep :=
    (segments_Trim relPath sep).symm
  by_cases ht : Trim relPath sep = []
  · have : segments relPath sep = [] := by
      rw [hseg, ht]
      rfl
    simp [ht, this]
  · have : segments relPath sep ≠ [] := by
      rw [hseg]
      cases hc : Trim relPath sep with
      | nil => exact absurd hc ht
      | cons x xs =>
        refine segments_cons_ne x xs sep ?_
        intro e
        rw [e] at hc
        exact Trim_head relPath sep xs hc
    simp only [ht, this, if_false]
    rw [hseg]
    rfl

/-- C10 (amended): for every path the splitter terminates, within a number of
iterations of one more than the length of the path, and returns the root marker
followed by the non-empty pieces of the separator-trimmed path cut at every
separator, or by one empty piece when nothing is left after trimming; the empty
pieces that redundant interior separators would give are left out. -/
theorem pathComponents_eq (sep : Char) (relPath : GoString) :
    pathComponentsLoop sep (relPath.length + 1) [[sep]] relPath = pathComponents sep relPath ∧
    pathComponents sep relPath =
      some ([sep] :: (if Trim relPath sep = [] then [[]]
        else (Split (Trim relPath sep) sep).filter (fun t => !t.isEmpty))) :=
  ⟨rfl, pathComponents_total sep relPath⟩

/-- C4 (as stated, refuted): for the comment `# k1, k2` the strings handed to
the parser are `k1` and ` k2`; the second keeps its leading blank. -/
theorem idStrs_entries_not_trimmed :
    idStrs "# k1, k2".toList = ["k1".toList, " k2".toList] ∧
      idStrsSpec "# k1, k2".toList = ["k1".toList, "k2".toList] ∧
      idStrs "# k1, k2".toList ≠ idStrsSpec "# k1, k2".toList := by
  decide

/-! ## Rule-file scan -/

section Scan

variable {P R I : Type} (ext : Ext P R I) (domain pathComponents : List GoString)

theorem scanLoop_append (l₁ l₂ : List GoString) (st : ResolverState R) :
    scanLoop ext domain pathComponents (l₁ ++ l₂) st =
      match scanLoop ext domain pathComponents l₁ st with
      | .error e => .error e
      | .ok st' => scanLoop ext domain pathComponents l₂ st' := by
  induction l₁ generalizing st with
  | nil => rfl
  | cons x xs ih =>
    simp only [List.cons_append, scanLoop]
    cases scanLine ext domain pathComponents st x with
    | error e => rfl
    | ok st' => exact ih st'

theorem scanLoop_snoc (l : List GoString) (text : GoString) (st st' : ResolverState R)
    (h : scanLoop ext domain pathComponents l st = .ok st') :
    scanLoop ext domain pathComponents (l ++ [text]) st =
      scanLine ext domain pathComponents st' text := by
  rw [scanLoop_append, h]
  simp only [scanLoop]
  cases scanLine ext domain pathComponents st' text <;> rfl

theorem scanLoop_append_ok (l₁ l₂ : List GoString) (st st₂ : ResolverState R)
    (h : scanLoop ext domain pathComponents (l₁ ++ l₂) st = .ok st₂) :
    ∃ st₁, scanLoop ext domain pathComponents l₁ st = .ok st₁ ∧
      scanLoop ext domain pathComponents l₂ st₁ = .ok st₂ := by
  rw [scanLoop_append] at h
  cases h1 : scanLoop ext domain pathComponents l₁ st with
  | error e => rw [h1] at h; cases h
  | ok st₁ => rw [h1] at h; exact ⟨st₁, rfl, h⟩

theorem scanLine_comment (st : ResolverState R) (text : GoString)
    (h : isCommentLine text = true) :
    scanLine ext domain pathComponents st text =
      .ok { recipients := st.recipients, preceedingComment := text } := by
  simp [scanLine, h]

theorem scanLine_pending (st st' : ResolverState R) (text : GoString)
    (h : isCommentLine text = false)
    (hs : scanLine ext domain pathComponents st text = .ok st') :
    st'.preceedingComment = st.preceedingComment := by
  unfold scanLine at hs
  simp only [h, Bool.false_eq_true, if_false] at hs
  split at hs
  · cases hs; rfl
  · split at hs
    · cases hs
    · split at hs
      · split at hs
        · cases hs
        · cases hs; rfl
      · cases hs; rfl

theorem scanLoop_pending (l : List GoString) (st st' : ResolverState R)
    (h : ∀ text ∈ l, isCommentLine text = false)
    (hs : scanLoop ext domain pathComponents l st = .ok st') :
    st'.preceedingComment = st.preceedingComment := by
  induction l generalizing st with
  | nil => simp only [scanLoop] at hs; cases hs; rfl
  | cons x xs ih =>
    simp only [scanLoop] at hs
    cases h1 : scanLine ext domain pathComponents st x with
    | error e => rw [h1] at hs; cases hs
    | ok st₁ =>
      rw [h1] at hs
      rw [ih st₁ (fun t ht => h t (List.mem_cons_of_mem _ ht)) hs]
      exact scanLine_pending ext domain pathComponents st st₁ x (h x (List.mem_cons_self _ _)) h1

theorem scanLoop_no_comment (l : List GoString) (rs : List R)
    (h : ∀ text ∈ l, isCommentLine text = false) :
    scanLoop ext domain pathComponents l { recipients := rs, preceedingComment := [] } =
      .ok { recipients := rs, preceedingComment := [] } := by
  induction l with
  | nil => rfl
  | cons x xs ih =>
    have hx : isCommentLine x = false := h x (List.mem_cons_self _ _)
    simp only [scanLoop, scanLine, hx, Bool.false_eq_true, if_false, if_true]
    exact ih (fun t ht => h t (List.mem_cons_of_mem _ ht))

theorem isCommentLine_ne_nil (text : GoString) (h : isCommentLine text = true) : text ≠ [] := by
  intro e
  rw [e] at h
  simp [isCommentLine] at h

theorem scanLine_match (st : ResolverState R) (text : GoString) (pattern : P)
    (hline : isCommentLine text = false) (hpend : st.preceedingComment ≠ [])
    (hparse : ext.ParseAttributesLine text domain = .ok (some pattern))
    (hmatch : ext.Match pattern pathComponents = true) :
    scanLine ext domain pathComponents st text =
      match newRecipients ext (idStrs st.preceedingComment) with
      | .error e => .error e
      | .ok new =>
        .ok { recipients := st.recipients ++ new, preceedingComment := st.preceedingComment } := by
  simp only [scanLine, hline, Bool.false_eq_true, if_false, hpend, hparse, hmatch, if_true]

theorem newRecipients_ok_iff (strs : List GoString) (rs : List R) :
    newRecipients ext strs = .ok rs ↔
      List.Forall₂ (fun str r => ext.ParseX25519Recipient str = .ok r) strs rs := by
  induction strs generalizing rs with
  | nil =>
    simp only [newRecipients, List.forall₂_nil_left_iff]
    constructor
    · intro h; cases h; rfl
    · intro h; rw [h]
  | cons s rest ih =>
    simp only [newRecipients, List.forall₂_cons_left_iff]
    cases hp : ext.ParseX25519Recipient s with
    | error u =>
      simp only []
      constructor
      · intro h; cases h
      · rintro ⟨r, rs', h1, _, _⟩; cases h1
    | ok r =>
      simp only []
      cases hr : newRecipients ext rest with
      | error e =>
        simp only []
        constructor
        · intro h; cases h
        · rintro ⟨r', rs', h1, h2, h3⟩
          rw [← ih rs'] at h2
          rw [hr] at h2
          cases h2
      | ok rs₀ =>
        simp only []
        constructor
        · intro h
          cases h
          exact ⟨r, rs₀, rfl, (ih rs₀).mp hr, rfl⟩
        · rintro ⟨r', rs', h1, h2, h3⟩
          cases h1
          rw [← ih rs', hr] at h2
          cases h2
          rw [h3]

end Scan

/-- C3 (as stated, refuted): in a rule file made of a comment naming `keyA`, a
rule for `other.txt` and a rule for `secret.txt`, the first rule does not match
`secret.txt`, the second does, and the second rule contributes the recipient of
the comment although the line directly above it is not a comment. -/
theorem comment_reaches_second_pattern :
    isCommentLine (commentOf keyA) = true ∧
      scanLoop sampleExt ["/".toList] ["/".toList, "secret.txt".toList]
          [commentOf keyA, otherRule] { recipients := [], preceedingComment := [] } =
        .ok { recipients := [], preceedingComment := commentOf keyA } ∧
      scanLoop sampleExt ["/".toList] ["/".toList, "secret.txt".toList]
          [commentOf keyA, otherRule, secretRule] { recipients := [], preceedingComment := [] } =
        .ok { recipients := [keyA], preceedingComment := commentOf keyA } := by
  refine ⟨by decide, by rfl, by rfl⟩

/-- C3 (amended): a line that is not a comment contributes nothing when no
comment line stands above it in its rule file; when one does, a matching line
takes its recipients from the nearest comment line above it, whatever
non-comment lines lie in between. -/
theorem pattern_uses_nearest_comment_above {P R I : Type} (ext : Ext P R I)
    (domain pathComponents : List GoString) (line : GoString)
    (hline : isCommentLine line = false) :
    (∀ above : List GoString, (∀ text ∈ above, isCommentLine text = false) →
      scanLoop ext domain pathComponents (above ++ [line])
          { recipients := [], preceedingComment := [] } =
        .ok { recipients := ([] : List R), preceedingComment := [] }) ∧
    (∀ (before between : List GoString) (comment : GoString) (st : ResolverState R)
        (pattern : P),
      isCommentLine comment = true →
      (∀ text ∈ between, isCommentLine text = false) →
      scanLoop ext domain pathComponents (before ++ comment :: between)
          { recipients := [], preceedingComment := [] } = .ok st →
      ext.ParseAttributesLine line domain = .ok (some pattern) →
      ext.Match pattern pathComponents = true →
      scanLoop ext domain pathComponents ((before ++ comment :: between) ++ [line])
          { recipients := [], preceedingComment := [] } =
        match newRecipients ext (idStrs comment) with
        | .error e => .error e
        | .ok new => .ok { recipients := st.recipients ++ new, preceedingComment := comment }) := by
  constructor
  · intro above habove
    apply scanLoop_no_comment
    intro text ht
    rcases List.mem_append.mp ht with h | h
    · exact habove text h
    · rw [List.mem_singleton.mp h]
      exact hline
  · intro before between comment st pattern hc hbetween hscan hparse hmatch
    have hpend : st.preceedingComment = comment := by
      obtain ⟨st₁, h1, h2⟩ := scanLoop_append_ok ext domain pathComponents before
        (comment :: between) _ st hscan
      simp only [scanLoop] at h2
      rw [scanLine_comment ext domain pathComponents st₁ comment hc] at h2
      exact scanLoop_pending ext domain pathComponents between _ st hbetween h2
    rw [scanLoop_snoc ext domain pathComponents _ line _ st hscan]
    rw [scanLine_match ext domain pathComponents st line pattern hline
      (by rw [hpend]; exact isCommentLine_ne_nil comment hc) hparse hmatch, hpend]

/-- Witness for C3 (amended): the rule file with a comment naming `keyA`, a
rule for `other.txt` and a rule for `secret.txt`; and a rule file holding the
rule for `other.txt` alone above the rule for `secret.txt`. -/
theorem pattern_uses_nearest_comment_above_witness :
    isCommentLine secretRule = false ∧
    scanLoop sampleExt ["/".toList] ["/".toList, "secret.txt".toList] ([otherRule] ++ [secretRule])
        { recipients := [], preceedingComment := [] } =
      .ok { recipients := ([] : List GoString), preceedingComment := [] } ∧
    scanLoop sampleExt ["/".toList] ["/".toList, "secret.txt".toList]
        (([] ++ commentOf keyA :: [otherRule]) ++ [secretRule])
        { recipients := [], preceedingComment := [] } =
      (match newRecipients sampleExt (idStrs (commentOf keyA)) with
      | .error e => .error e
      | .ok new =>
        .ok { recipients := ([] : List GoString) ++ new, preceedingComment := commentOf keyA }) :=
  ⟨by decide,
    (pattern_uses_nearest_comment_above sampleExt ["/".toList]
      ["/".toList, "secret.txt".toList] secretRule (by decide)).1 [otherRule] (by decide),
    (pattern_uses_nearest_comment_above sampleExt ["/".toList]
      ["/".toList, "secret.txt".toList] secretRule (by decide)).2 [] [otherRule] (commentOf keyA)
      { recipients := [], preceedingComment := commentOf keyA }
      (["/".toList], "secret.txt".toList) (by decide) (by decide) (by rfl) (by rfl) (by decide)⟩

/-- C4 (amended): when a rule matches, the strings handed to the recipient
parser are the pieces of the pending comment, its first character dropped and
the rest trimmed of white space as a whole, cut at every comma; the line
succeeds exactly when each piece parses, and it appends the parsed recipients
in order. -/
theorem matching_rule_parses_comment_pieces {P R I : Type} (ext : Ext P R I)
    (domain pathComponents : List GoString) (st st' : ResolverState R) (line : GoString)
    (pattern : P)
    (hline : isCommentLine line = false) (hpend : st.preceedingComment ≠ [])
    (hparse : ext.ParseAttributesLine line domain = .ok (some pattern))
    (hmatch : ext.Match pattern pathComponents = true) :
    scanLine ext domain pathComponents st line = .ok st' ↔
      (st'.preceedingComment = st.preceedingComment ∧
        ∃ new : List R,
          List.Forall₂ (fun str r => ext.ParseX25519Recipient str = .ok r)
            (Split (TrimSpace (st.preceedingComment.drop 1)) ',') new ∧
          st'.recipients = st.recipients ++ new) := by
  rw [scanLine_match ext domain pathComponents st line pattern hline hpend hparse hmatch]
  constructor
  · intro h
    cases hn : newRecipients ext (idStrs st.preceedingComment) with
    | error e => rw [hn] at h; cases h
    | ok new =>
      rw [hn] at h
      cases h
      exact ⟨rfl, new, (newRecipients_ok_iff ext _ new).mp hn, rfl⟩
  · rintro ⟨h1, new, h2, h3⟩
    have hn : newRecipients ext (idStrs st.preceedingComment) = .ok new :=
      (newRecipients_ok_iff ext _ new).mpr h2
    rw [hn]
    cases st' with
    | mk rs c =>
      simp only at h1 h3
      rw [h1, h3]

/-- Witness for C4 (amended): the comment `# keyA,keyB` above the rule for
`secret.txt` hands `keyA` and `keyB` to the parser. -/
theorem matching_rule_parses_comment_pieces_witness :
    isCommentLine secretRule = false ∧
    (commentOf (keyA ++ ',' :: keyB)) ≠ [] ∧
    sampleExt.ParseAttributesLine secretRule ["/".toList] =
      .ok (some (["/".toList], "secret.txt".toList)) ∧
    sampleExt.Match (["/".toList], "secret.txt".toList) ["/".toList, "secret.txt".toList] = true ∧
    scanLine sampleExt ["/".toList] ["/".toList, "secret.txt".toList]
        { recipients := [], preceedingComment := commentOf (keyA ++ ',' :: keyB) } secretRule =
          .ok { recipients := [keyA, keyB], preceedingComment := commentOf (keyA ++ ',' :: keyB) } ∧
    (scanLine sampleExt ["/".toList] ["/".toList, "secret.txt".toList]
        { recipients := [], preceedingComment := commentOf (keyA ++ ',' :: keyB) } secretRule =
          .ok { recipients := [keyA, keyB], preceedingComment := commentOf (keyA ++ ',' :: keyB) } ↔
      (commentOf (keyA ++ ',' :: keyB) = commentOf (keyA ++ ',' :: keyB) ∧
        ∃ new : List GoString,
          List.Forall₂ (fun str r => sampleExt.ParseX25519Recipient str = .ok r)
            (Split (TrimSpace ((commentOf (keyA ++ ',' :: keyB)).drop 1)) ',') new ∧
          [keyA, keyB] = [] ++ new)) :=
  ⟨by decide, by decide, by rfl, by decide, by rfl,
    matching_rule_parses_comment_pieces sampleExt ["/".toList] ["/".toList, "secret.txt".toList]
      { recipients := [], preceedingComment := commentOf (keyA ++ ',' :: keyB) }
      { recipients := [keyA, keyB], preceedingComment := commentOf (keyA ++ ',' :: keyB) }
      secretRule (["/".toList], "secret.txt".toList) (by decide) (by decide) (by rfl) (by decide)⟩

/-! ## Recipient resolver -/

section Resolver

variable {P R I : Type} (ext : Ext P R I) (env : Env I) (pathComponents : List GoString)

end Resolver

/-- C5: whenever the resolver loop has run over some of the directories and
goes on, the pending comment is empty, so the scan of the next rule file starts
without one: the rest of the loop runs from the recipients found so far and an
empty pending comment. -/
theorem pending_comment_empty_between_files {P R I : Type} (ext : Ext P R I) (env : Env I)
    (pathComponents : List GoString) (done todo : List Nat) (rs : List R)
    (st : ResolverState R)
    (h : resolveLoop ext env pathComponents done { recipients := rs, preceedingComment := [] } =
      .ok st) :
    st.preceedingComment = [] ∧
      resolveLoop ext env pathComponents (done ++ todo)
          { recipients := rs, preceedingComment := [] } =
        resolveLoop ext env pathComponents todo
          { recipients := st.recipients, preceedingComment := [] } := by
  induction done generalizing rs with
  | nil =>
    simp only [resolveLoop] at h
    cases h
    exact ⟨rfl, rfl⟩
  | cons i rest ih =>
    simp only [resolveLoop, List.cons_append] at h ⊢
    cases ho : env.osOpen (ruleFilePath ext (pathComponents.take (i + 1))) with
    | none =>
      rw [ho] at h
      exact ih rs h
    | some lines =>
      rw [ho] at h
      simp only [] at h ⊢
      cases hs : scanLoop ext (pathComponents.take (i + 1)) pathComponents lines
          { recipients := rs, preceedingComment := [] } with
      | error e => rw [hs] at h; cases h
      | ok s =>
        rw [hs] at h
        exact ih s.recipients h

/-- Witness for C5: the example of the specification.  After the root rule
file, which ends in a comment naming `keyA`, the pending comment is empty, and
`sub/secret.txt` resolves to no recipient. -/
theorem pending_comment_empty_between_files_witness :
    resolveLoop sampleExt boundaryEnv ["/".toList, "sub".toList, "secret.txt".toList] [0]
        { recipients := [], preceedingComment := [] } =
      .ok { recipients := ([] : List GoString), preceedingComment := [] } ∧
    resolve sampleExt boundaryEnv ["/".toList, "sub".toList, "secret.txt".toList] = .ok [] ∧
    (([] : GoString) = [] ∧
      resolveLoop sampleExt boundaryEnv ["/".toList, "sub".toList, "secret.txt".toList] ([0] ++ [1])
          { recipients := ([] : List GoString), preceedingComment := [] } =
        resolveLoop sampleExt boundaryEnv ["/".toList, "sub".toList, "secret.txt".toList] [1]
          { recipients := [], preceedingComment := [] }) :=
  ⟨by rfl, by rfl,
    pending_comment_empty_between_files sampleExt boundaryEnv
      ["/".toList, "sub".toList, "secret.txt".toList] [0] [1] []
      { recipients := [], preceedingComment := [] } (by rfl)⟩

/-- Recipients at two levels are both kept, root first, and a recipient named
twice is kept twice. -/
theorem resolve_two_levels :
    resolve sampleExt twoLevelEnv ["/".toList, "sub".toList, "secret.txt".toList] =
        .ok [keyA, keyB] ∧
      resolve sampleExt
          { sampleEnv with
            osOpen := diskOf [(".gitattributes".toList, [commentOf keyA, secretRule]),
              ("sub/.gitattributes".toList, [commentOf keyA, secretRule])] }
          ["/".toList, "sub".toList, "secret.txt".toList] =
        .ok [keyA, keyA] :=
  ⟨by rfl, by rfl⟩

/-! ## The clean branch -/

theorem encryptPhase_eq {P R I : Type} (ext : Ext P R I) (env : Env I) (relPath : GoString)
    (p : Proc R) :
    ∃ pc, pathComponents ext.Separator relPath = some pc ∧
      encryptPhase ext env relPath none p =
        match resolve ext env pc with
        | .error e => { p with status := .fatal e }
        | .ok recipients =>
          if ext.ageEncryptOk recipients then
            { status := .done
              stdin := []
              stdout := p.stdout ++ [.encrypted recipients p.stdin]
              calls := p.calls ++ [.encrypt recipients] }
          else
            { p with status := .fatal .encrypt, calls := p.calls ++ [.encrypt recipients] } := by
  refine ⟨_, pathComponents_total ext.Separator relPath, ?_⟩
  unfold encryptPhase
  simp only []
  rw [pathComponents_total ext.Separator relPath]

/-- When the repository has no commit, the run ends fatally on the check of
lines 208-210, before the splitter, the resolver and the encryption: nothing is
read, written, decrypted or encrypted. -/
theorem clean_headless_fatal {P R I : Type} (ext : Ext P R I) (env : Env I)
    (relPath : GoString) (input : List Byte) (hhead : env.head = .errReferenceNotFound) :
    (clean ext env relPath input : Proc R) =
      { status := .fatal .referenceNotFound, stdin := input, stdout := [], calls := [] } := by
  unfold clean
  simp only [hhead, encryptPhase]

/-- When the path is absent from the tree of the head commit, the run decrypts
nothing and, once the recipients are resolved and accepted, writes the
encryption of the whole standard input under the resolved recipients; otherwise
it ends fatally having written nothing. -/
theorem clean_path_absent {P R I : Type} (ext : Ext P R I) (env : Env I)
    (relPath : GoString) (input : List Byte)
    (hhead : env.head = .ok) (hreset : env.resetOk = true)
    (hopen : env.memfsOpen relPath = .errNotExist) :
    ∃ pc, pathComponents ext.Separator relPath = some pc ∧
      (clean ext env relPath input : Proc R) =
        match resolve ext env pc with
        | .error e => { status := .fatal e, stdin := input, stdout := [], calls := [] }
        | .ok recipients =>
          if ext.ageEncryptOk recipients then
            { status := .done, stdin := [], stdout := [.encrypted recipients input],
              calls := [.encrypt recipients] }
          else
            { status := .fatal .encrypt, stdin := input, stdout := [],
              calls := [.encrypt recipients] } := by
  obtain ⟨pc, hpc, he⟩ := encryptPhase_eq ext env relPath
    ({ status := .done, stdin := input, stdout := [], calls := [] } : Proc R)
  refine ⟨pc, hpc, ?_⟩
  have hc : (clean ext env relPath input : Proc R) =
      encryptPhase ext env relPath none
        { status := .done, stdin := input, stdout := [], calls := [] } := by
    unfold clean
    simp only [hhead, hreset, hopen, if_true]
  rw [hc, he]
  cases resolve ext env pc with
  | error e => rfl
  | ok recipients => simp

/-- The path-absent case on the sample repository: cleaning `new.txt`, which the
head commit does not hold, with the byte `b` on standard input encrypts that
byte for `keyA` and decrypts nothing. -/
theorem clean_path_absent_sample :
    newFileEnv.memfsOpen "new.txt".toList = .errNotExist ∧
      (clean sampleExt newFileEnv "new.txt".toList [0x62] : Proc GoString) =
        { status := .done, stdin := [], stdout := [.encrypted [keyA] [0x62]],
          calls := [.encrypt [keyA]] } := by
  decide

/-- C7 (the code departs from it): in a repository without any commit, with a
root rule file naming `keyA` for `secret.txt` and the byte `b` on standard
input, cleaning `secret.txt` ends fatally on the check of lines 208-210: nothing
is encrypted and nothing is written. -/
theorem clean_headless_aborts :
    headlessEnv.head = .errReferenceNotFound ∧
      (clean sampleExt headlessEnv "secret.txt".toList [0x62] : Proc GoString) =
        { status := .fatal .referenceNotFound, stdin := [0x62], stdout := [], calls := [] } := by
  decide

/-- C2: when the path exists in the tree of the head commit and its stored blob
decrypts to exactly the bytes on standard input, the run writes the stored blob
as it is and calls no age primitive but the one decryption. -/
theorem clean_unchanged_reuses_ciphertext {P R I : Type} (ext : Ext P R I) (env : Env I)
    (relPath : GoString) (input blob : List Byte) (id : I)
    (hhead : env.head = .ok) (hreset : env.resetOk = true)
    (hopen : env.memfsOpen relPath = .file blob) (hid : env.getIdentity = some id)
    (hdec : ext.ageDecrypt id blob = some input) :
    (clean ext env relPath input : Proc R) =
      { status := .done, stdin := [], stdout := [.raw blob], calls := [.decrypt blob] } := by
  unfold clean
  simp only [hhead, hreset, hopen, hid, hdec, if_true, noChanges_eq_decide, decide_True]

/-- Witness for C2: the head commit stores `secret.txt` as the encryption of the
byte `a`, and `a` is on standard input. -/
theorem clean_unchanged_reuses_ciphertext_witness :
    sampleEnv.head = .ok ∧ sampleEnv.resetOk = true ∧
    sampleEnv.memfsOpen "secret.txt".toList = .file [0xA9, 0x61] ∧
    sampleEnv.getIdentity = some () ∧
    sampleExt.ageDecrypt () [0xA9, 0x61] = some [0x61] ∧
    (clean sampleExt sampleEnv "secret.txt".toList [0x61] : Proc GoString) =
      { status := .done, stdin := [], stdout := [.raw [0xA9, 0x61]],
        calls := [.decrypt [0xA9, 0x61]] } :=
  ⟨rfl, rfl, by decide, rfl, by decide,
    clean_unchanged_reuses_ciphertext sampleExt sampleEnv "secret.txt".toList [0x61] [0xA9, 0x61] ()
      rfl rfl (by decide) rfl (by decide)⟩

/-- When the path exists in the tree of the head commit and its stored blob
decrypts to other bytes than those on standard input, standard input has been
read to the end by the comparison, and the encryption is handed the empty
remainder. -/
theorem clean_changed_encrypts_remainder {P R I : Type} (ext : Ext P R I) (env : Env I)
    (relPath : GoString) (input blob headBuf : List Byte) (id : I)
    (hhead : env.head = .ok) (hreset : env.resetOk = true)
    (hopen : env.memfsOpen relPath = .file blob) (hid : env.getIdentity = some id)
    (hdec : ext.ageDecrypt id blob = some headBuf) (hne : headBuf ≠ input) :
    ∃ pc, pathComponents ext.Separator relPath = some pc ∧
      (clean ext env relPath input : Proc R) =
        match resolve ext env pc with
        | .error e =>
          { status := .fatal e, stdin := [], stdout := [], calls := [.decrypt blob] }
        | .ok recipients =>
          if ext.ageEncryptOk recipients then
            { status := .done, stdin := [], stdout := [.encrypted recipients []],
              calls := [.decrypt blob, .encrypt recipients] }
          else
            { status := .fatal .encrypt, stdin := [], stdout := [],
              calls := [.decrypt blob, .encrypt recipients] } := by
  obtain ⟨pc, hpc, he⟩ := encryptPhase_eq ext env relPath
    ({ status := .done, stdin := [], stdout := [], calls := [.decrypt blob] } : Proc R)
  refine ⟨pc, hpc, ?_⟩
  have hc : (clean ext env relPath input : Proc R) =
      encryptPhase ext env relPath none
        { status := .done, stdin := [], stdout := [], calls := [.decrypt blob] } := by
    unfold clean
    simp only [hhead, hreset, hopen, hid, hdec, if_true, noChanges_eq_decide, hne, decide_False]
  rw [hc, he]
  cases resolve ext env pc with
  | error e => rfl
  | ok recipients => simp

/-- C1 (the code departs from it): the head commit stores `secret.txt` as the
encryption of the byte `a` and the byte `b` is on standard input; the run
hands the empty plaintext to the encryption, not the byte `b`. -/
theorem clean_changed_encrypts_empty :
    (clean sampleExt sampleEnv "secret.txt".toList [0x62] : Proc GoString) =
      { status := .done, stdin := [], stdout := [.encrypted [keyA] []],
        calls := [.decrypt [0xA9, 0x61], .encrypt [keyA]] } := by
  decide
end GitCryptAgessh
